import Mathlib

set_option maxHeartbeats 1000000

/-!
Shallow embedding of `rbf-rs` (`src/lib.rs`): a fixed-capacity ring buffer
`RingBuffer<T, SIZE>` with overwrite / reject insertion policies, pop, peek,
bulk drain (`pop_many`), consuming and borrowing iterators, and an
`embedded_io::Read` adapter for byte buffers.

Machine integers (`usize`) are modelled as `Nat`.  A Rust panic (remainder by
zero, out-of-bounds indexing, `Option::unwrap` on `None`) is modelled by
`Option`-valued operations returning `none`; every operation on the buffer
therefore returns `Option (result × newState)`.
-/

/-- Rust `a % b` on `usize`: panics when `b = 0`, modelled as `none`. -/
def rustMod (a b : Nat) : Option Nat :=
  if b = 0 then none else some (a % b)

/-- `RingBuffer<T, SIZE>`: `data` is the backing array of `SIZE` slots,
`oldest` the index of the logical head, `num_elems` the element count. -/
structure RingBuffer (α : Type) (SIZE : Nat) where
  data : Fin SIZE → α
  oldest : Nat
  num_elems : Nat

/-- The crate's error enum: only `BufferFull`. -/
inductive Error where
  | BufferFull
deriving DecidableEq, Repr

namespace RingBuffer

variable {α : Type} {n : Nat} [Inhabited α]

/-- `RingBuffer::new` / `Default::default()`: an empty buffer, storage filled
with the element type's default value. -/
def new (α : Type) [Inhabited α] (n : Nat) : RingBuffer α n :=
  ⟨fun _ => default, 0, 0⟩

/-- `RingBuffer::len`. -/
def len (b : RingBuffer α n) : Nat := b.num_elems

/-- `RingBuffer::is_empty`. -/
def is_empty (b : RingBuffer α n) : Bool := b.len == 0

/-- `RingBuffer::is_full`. -/
def is_full (b : RingBuffer α n) : Bool := b.len == n

/-- Rust array read `self.data[i]`: panics (`none`) when `i` is out of
bounds. -/
def readSlot (b : RingBuffer α n) (i : Nat) : Option α :=
  if h : i < n then some (b.data ⟨i, h⟩) else none

/-- Rust array write `self.data[i] = x`: panics (`none`) when `i` is out of
bounds. -/
def writeSlot (b : RingBuffer α n) (i : Nat) (x : α) : Option (RingBuffer α n) :=
  if h : i < n then some { b with data := Function.update b.data ⟨i, h⟩ x } else none

/-- `RingBuffer::push_overwrite`.  Returns the evicted oldest element when the
buffer was full, `none` otherwise; paired with the updated buffer. -/
def push_overwrite (b : RingBuffer α n) (elem : α) : Option (Option α × RingBuffer α n) := do
  let index ← rustMod (b.oldest + b.num_elems) n
  if b.is_full then do
    let old ← b.readSlot b.oldest
    let oldest2 ← rustMod (b.oldest + 1) n
    let b2 ← writeSlot { b with oldest := oldest2 } index elem
    pure (some old, b2)
  else do
    let b2 ← b.writeSlot index elem
    pure (none, { b2 with num_elems := b2.num_elems + 1 })

/-- `RingBuffer::push_unless_full`. -/
def push_unless_full (b : RingBuffer α n) (elem : α) :
    Option (Except Error Unit × RingBuffer α n) :=
  if b.is_full then some (Except.error Error.BufferFull, b)
  else do
    let index ← rustMod (b.oldest + b.num_elems) n
    let b2 ← b.writeSlot index elem
    pure (Except.ok (), { b2 with num_elems := b2.num_elems + 1 })

/-- `RingBuffer::pop`. -/
def pop (b : RingBuffer α n) : Option (Option α × RingBuffer α n) :=
  if b.is_empty then some (none, b)
  else do
    let elem ← b.readSlot b.oldest
    let oldest2 ← rustMod (b.oldest + 1) n
    pure (some elem, { b with oldest := oldest2, num_elems := b.num_elems - 1 })

/-- `RingBuffer::peek`: no mutation, so only the result is returned. -/
def peek (b : RingBuffer α n) : Option (Option α) :=
  if b.is_empty then some none
  else (b.readSlot b.oldest).map some

/-- The loop body of `RingBuffer::pop_many`: write `pop().unwrap()` into the
first `count` slots of `buf` (`.unwrap()` on `None` panics). -/
def popManyLoop : Nat → RingBuffer α n → List α → Option (RingBuffer α n × List α)
  | 0, b, buf => some (b, buf)
  | _ + 1, b, [] => some (b, [])
  | k + 1, b, _ :: rest => do
      let (r, b2) ← pop b
      let v ← r
      let (b3, rest2) ← popManyLoop k b2 rest
      pure (b3, v :: rest2)

/-- `RingBuffer::pop_many`: drains `min(len, buf.len())` elements into the
destination, returning the count, the drained buffer and the updated
destination slice. -/
def pop_many (b : RingBuffer α n) (buf : List α) :
    Option (Nat × RingBuffer α n × List α) := do
  let count := Nat.min b.len buf.length
  let (b2, buf2) ← popManyLoop count b buf
  pure (count, b2, buf2)

end RingBuffer

/-- `ConsumingIntoIteratorRingbuffer<T, SIZE>`: owns the buffer. -/
structure ConsumingIntoIteratorRingbuffer (α : Type) (SIZE : Nat) where
  buffer : RingBuffer α SIZE

/-- `IntoIterator for RingBuffer`: wrap the buffer. -/
def RingBuffer.into_iter {α : Type} {n : Nat} (b : RingBuffer α n) :
    ConsumingIntoIteratorRingbuffer α n :=
  ⟨b⟩

/-- `Iterator::next` for the consuming iterator: `self.buffer.pop()`. -/
def ConsumingIntoIteratorRingbuffer.next {α : Type} {n : Nat} [Inhabited α]
    (it : ConsumingIntoIteratorRingbuffer α n) :
    Option (Option α × ConsumingIntoIteratorRingbuffer α n) :=
  (RingBuffer.pop it.buffer).map fun p => (p.1, ⟨p.2⟩)

/-- `IntoIteratorRingbuffer<'a, T, SIZE>`: borrowing iterator, a read-only
view of the buffer plus a cursor. -/
structure IntoIteratorRingbuffer (α : Type) (SIZE : Nat) where
  buffer : RingBuffer α SIZE
  current : Nat

/-- `IntoIterator for &RingBuffer`: view plus cursor 0. -/
def RingBuffer.borrow_iter {α : Type} {n : Nat} (b : RingBuffer α n) :
    IntoIteratorRingbuffer α n :=
  ⟨b, 0⟩

/-- `Iterator::next` for the borrowing iterator. -/
def IntoIteratorRingbuffer.next {α : Type} {n : Nat} [Inhabited α]
    (it : IntoIteratorRingbuffer α n) :
    Option (Option α × IntoIteratorRingbuffer α n) :=
  if it.current < it.buffer.num_elems then do
    let index ← rustMod (it.buffer.oldest + it.current) n
    let elem ← RingBuffer.readSlot it.buffer index
    pure (some elem, { it with current := it.current + 1 })
  else some (none, it)

/-- `RingBuffer::iter`: `self.into_iter()` on the borrow. -/
def RingBuffer.iter {α : Type} {n : Nat} (b : RingBuffer α n) :
    IntoIteratorRingbuffer α n :=
  b.borrow_iter

/-- Bytes for the `embedded_io::Read` adapter. -/
abbrev U8 := Fin 256

instance : Inhabited U8 := ⟨⟨0, by decide⟩⟩

/-- `embedded_io::Read::read` for `RingBuffer<u8, SIZE>`:
`Ok(self.pop_many(buf))`. -/
def RingBuffer.read {n : Nat} (b : RingBuffer U8 n) (buf : List U8) :
    Option (Except Error Nat × RingBuffer U8 n × List U8) :=
  (RingBuffer.pop_many b buf).map fun r => (Except.ok r.1, r.2.1, r.2.2)

/-! ## Specification-level views and the reachability relation -/

namespace RingBuffer

variable {α : Type} {n : Nat} [Inhabited α]

/-- Total read of slot `i`, falling back to `default` out of bounds (only used
to state properties, never to model the code). -/
def getD (b : RingBuffer α n) (i : Nat) : α :=
  if h : i < n then b.data ⟨i, h⟩ else default

/-- The logical window of the buffer, oldest first:
slot `(oldest + i) % n` for `i < num_elems`. -/
def window (b : RingBuffer α n) : List α :=
  (List.range b.num_elems).map fun i => b.getD ((b.oldest + i) % n)

/-- The data-model invariant (spec §3): the head index is in `[0, SIZE)` and
the count never exceeds the capacity. -/
abbrev Inv (b : RingBuffer α n) : Prop :=
  b.oldest < n ∧ b.num_elems ≤ n

/-- `k` sequential `pop` calls, collecting popped values (stops collecting
once `pop` signals empty). -/
def popN : Nat → RingBuffer α n → Option (List α × RingBuffer α n)
  | 0, b => some ([], b)
  | k + 1, b => do
      let (r, b2) ← pop b
      match r with
      | some v => do
          let (vs, b3) ← popN k b2
          pure (v :: vs, b3)
      | none => some ([], b2)

end RingBuffer

/-- Run the borrowing iterator `k` steps, collecting each `next()` result. -/
def iterNextN {α : Type} {n : Nat} [Inhabited α] :
    Nat → IntoIteratorRingbuffer α n → Option (List (Option α) × IntoIteratorRingbuffer α n)
  | 0, it => some ([], it)
  | k + 1, it => do
      let (r, it2) ← it.next
      let (rs, it3) ← iterNextN k it2
      pure (r :: rs, it3)

/-- Run the consuming iterator `k` steps, collecting each `next()` result. -/
def consNextN {α : Type} {n : Nat} [Inhabited α] :
    Nat → ConsumingIntoIteratorRingbuffer α n →
    Option (List (Option α) × ConsumingIntoIteratorRingbuffer α n)
  | 0, it => some ([], it)
  | k + 1, it => do
      let (r, it2) ← it.next
      let (rs, it3) ← consNextN k it2
      pure (r :: rs, it3)

/-- One public operation of the crate, for the reachability relation. -/
inductive Op (α : Type) where
  | pushOverwrite (x : α)
  | pushUnlessFull (x : α)
  | popOp
  | peekOp
  | popMany (dest : List α)
  | iterate (steps : Nat)

/-- Apply one operation, keeping only the successor state (`none` = panic). -/
def runOp {α : Type} {n : Nat} [Inhabited α] (b : RingBuffer α n) :
    Op α → Option (RingBuffer α n)
  | .pushOverwrite x => (b.push_overwrite x).map Prod.snd
  | .pushUnlessFull x => (b.push_unless_full x).map Prod.snd
  | .popOp => b.pop.map Prod.snd
  | .peekOp => (b.peek).map fun _ => b
  | .popMany dest => (b.pop_many dest).map fun r => r.2.1
  | .iterate k => (iterNextN k b.iter).map fun r => r.2.buffer

/-- Apply a list of operations in order. -/
def runOps {α : Type} {n : Nat} [Inhabited α] (b : RingBuffer α n) :
    List (Op α) → Option (RingBuffer α n)
  | [] => some b
  | op :: rest => do
      let b2 ← runOp b op
      runOps b2 rest

/-- A state is reachable when some operation sequence run from `new` produces
it without panicking. -/
def Reachable {α : Type} {n : Nat} [Inhabited α] (b : RingBuffer α n) : Prop :=
  ∃ ops : List (Op α), runOps (RingBuffer.new α n) ops = some b

/-! ## Basic lemmas about the window view -/

/-- Adding a fixed offset and reducing mod `n` is injective below `n`. -/
theorem add_mod_inj {n a i j : Nat} (hi : i < n) (hj : j < n)
    (h : (a + i) % n = (a + j) % n) : i = j := by
  have h2 : i % n = j % n := Nat.ModEq.add_left_cancel' a h
  rwa [Nat.mod_eq_of_lt hi, Nat.mod_eq_of_lt hj] at h2

namespace RingBuffer

variable {α : Type} {n : Nat} [Inhabited α]

theorem length_window (b : RingBuffer α n) : (window b).length = b.num_elems := by
  simp [window]

theorem getElem_window (b : RingBuffer α n) (i : Nat) (h : i < (window b).length) :
    (window b)[i] = b.getD ((b.oldest + i) % n) := by
  simp [window]

theorem window_new : window (new α n) = [] := by
  simp [window, new]

theorem inv_new (hn : 1 ≤ n) : Inv (new α n) :=
  ⟨hn, Nat.zero_le n⟩

/-- The data array after writing `x` at index `idx`. -/
def writtenData (d : Fin n → α) (idx : Nat) (x : α) : Fin n → α :=
  fun j => if (j : Nat) = idx then x else d j

omit [Inhabited α] in
theorem update_eq_writtenData {d : Fin n → α} {idx : Nat} (h : idx < n) (x : α) :
    Function.update d ⟨idx, h⟩ x = writtenData d idx x := by
  funext j
  rcases eq_or_ne (j : Nat) idx with h1 | h1
  · have h2 : j = ⟨idx, h⟩ := Fin.ext h1
    subst h2
    simp [writtenData]
  · have h2 : j ≠ ⟨idx, h⟩ := by simp [Fin.ext_iff, h1]
    simp [Function.update_noteq h2, writtenData, h1]

theorem writeSlot_lt {b : RingBuffer α n} {idx : Nat} (h : idx < n) (x : α) :
    b.writeSlot idx x = some ⟨writtenData b.data idx x, b.oldest, b.num_elems⟩ := by
  simp only [writeSlot, dif_pos h, update_eq_writtenData h x]

theorem readSlot_lt {b : RingBuffer α n} (h : b.oldest < n) :
    b.readSlot b.oldest = some (b.getD b.oldest) := by
  simp [readSlot, getD, dif_pos h]

/-! ## Exact descriptions of the mutating operations -/

theorem pop_not_empty {b : RingBuffer α n} (h1 : b.oldest < n) (h0 : b.num_elems ≠ 0) :
    b.pop = some (some (b.getD b.oldest),
      ⟨b.data, (b.oldest + 1) % n, b.num_elems - 1⟩) := by
  have hn : n ≠ 0 := by omega
  simp only [pop, is_empty, len, beq_iff_eq, h0, if_false, readSlot_lt h1,
    rustMod, hn, if_false, Option.bind_eq_bind, Option.some_bind, Option.pure_def]

omit [Inhabited α] in
theorem pop_empty {b : RingBuffer α n} (h0 : b.num_elems = 0) :
    b.pop = some (none, b) := by
  simp [pop, is_empty, len, h0]

omit [Inhabited α] in
theorem peek_empty {b : RingBuffer α n} (h0 : b.num_elems = 0) :
    b.peek = some none := by
  simp [peek, is_empty, len, h0]

theorem peek_not_empty {b : RingBuffer α n} (h1 : b.oldest < n) (h0 : b.num_elems ≠ 0) :
    b.peek = some (some (b.getD b.oldest)) := by
  simp [peek, is_empty, len, h0, readSlot_lt h1]

theorem push_overwrite_not_full {b : RingBuffer α n} (x : α) (hn : n ≠ 0)
    (hf : b.num_elems ≠ n) :
    b.push_overwrite x = some (none,
      ⟨writtenData b.data ((b.oldest + b.num_elems) % n) x,
       b.oldest, b.num_elems + 1⟩) := by
  have hlt : (b.oldest + b.num_elems) % n < n := Nat.mod_lt _ (by omega)
  simp only [push_overwrite, rustMod, hn, if_false, Option.bind_eq_bind,
    Option.some_bind, is_full, len, beq_iff_eq, hf, if_false, writeSlot_lt hlt,
    Option.pure_def]

theorem push_overwrite_full {b : RingBuffer α n} (x : α) (hI : Inv b)
    (hf : b.num_elems = n) :
    b.push_overwrite x = some (some (b.getD b.oldest),
      ⟨writtenData b.data b.oldest x, (b.oldest + 1) % n, b.num_elems⟩) := by
  have hn : n ≠ 0 := by omega
  have hidx : (b.oldest + b.num_elems) % n = b.oldest := by
    rw [hf, Nat.add_mod_right, Nat.mod_eq_of_lt hI.1]
  have hfull : b.is_full = true := by simp [is_full, len, hf]
  simp only [push_overwrite, rustMod, hn, if_false, hidx, Option.bind_eq_bind,
    Option.some_bind, hfull, if_true, readSlot_lt hI.1,
    writeSlot_lt hI.1, Option.pure_def]

omit [Inhabited α] in
theorem push_unless_full_full {b : RingBuffer α n} (x : α) (hf : b.num_elems = n) :
    b.push_unless_full x = some (Except.error Error.BufferFull, b) := by
  simp [push_unless_full, is_full, len, hf]

theorem push_unless_full_not_full {b : RingBuffer α n} (x : α) (hn : n ≠ 0)
    (hf : b.num_elems ≠ n) :
    b.push_unless_full x = some (Except.ok (),
      ⟨writtenData b.data ((b.oldest + b.num_elems) % n) x,
       b.oldest, b.num_elems + 1⟩) := by
  have hlt : (b.oldest + b.num_elems) % n < n := Nat.mod_lt _ (by omega)
  simp only [push_unless_full, is_full, len, beq_iff_eq, hf, if_false, rustMod,
    hn, Option.bind_eq_bind, Option.some_bind, writeSlot_lt hlt, Option.pure_def]

end RingBuffer

/-! ## How the window evolves under each operation -/

namespace RingBuffer

variable {α : Type} {n : Nat} [Inhabited α]

theorem window_pop {b : RingBuffer α n} (hI : Inv b) (h0 : b.num_elems ≠ 0) :
    window b = b.getD b.oldest ::
      window (⟨b.data, (b.oldest + 1) % n, b.num_elems - 1⟩ : RingBuffer α n) := by
  apply List.ext_getElem
  · simp [length_window]
    omega
  · intro i h1 h2
    rw [getElem_window]
    match i with
    | 0 =>
      simp [Nat.mod_eq_of_lt hI.1]
    | j + 1 =>
      rw [List.getElem_cons_succ]
      rw [getElem_window]
      show b.getD ((b.oldest + (j + 1)) % n) =
        RingBuffer.getD ⟨b.data, (b.oldest + 1) % n, b.num_elems - 1⟩
          (((b.oldest + 1) % n + j) % n)
      have harg : ((b.oldest + 1) % n + j) % n = (b.oldest + (j + 1)) % n := by
        rw [Nat.mod_add_mod]
        congr 1
        omega
      rw [harg]
      rfl

theorem window_push {b : RingBuffer α n} (hI : Inv b) (hf : b.num_elems ≠ n) (x : α) :
    window (⟨writtenData b.data ((b.oldest + b.num_elems) % n) x,
        b.oldest, b.num_elems + 1⟩ : RingBuffer α n) = window b ++ [x] := by
  have hn : n ≠ 0 := by omega
  have hnum : b.num_elems < n := by omega
  apply List.ext_getElem
  · simp [length_window]
  · intro i h1 h2
    rw [getElem_window]
    show RingBuffer.getD ⟨writtenData b.data ((b.oldest + b.num_elems) % n) x,
        b.oldest, b.num_elems + 1⟩ ((b.oldest + i) % n) = _
    have hi : i < b.num_elems + 1 := by
      simpa [length_window] using h1
    have hlt : (b.oldest + i) % n < n := Nat.mod_lt _ (by omega)
    rcases Nat.lt_or_ge i b.num_elems with hcase | hcase
    · have hne : (b.oldest + i) % n ≠ (b.oldest + b.num_elems) % n := by
        intro hcontra
        have := add_mod_inj (a := b.oldest) (by omega) hnum hcontra
        omega
      have hval : RingBuffer.getD ⟨writtenData b.data ((b.oldest + b.num_elems) % n) x,
          b.oldest, b.num_elems + 1⟩ ((b.oldest + i) % n) = b.getD ((b.oldest + i) % n) := by
        simp [RingBuffer.getD, dif_pos hlt, writtenData, hne]
      rw [hval, List.getElem_append_left (by simp [length_window]; omega)]
      rw [getElem_window]
    · have hie : i = b.num_elems := by omega
      have hval : RingBuffer.getD ⟨writtenData b.data ((b.oldest + b.num_elems) % n) x,
          b.oldest, b.num_elems + 1⟩ ((b.oldest + i) % n) = x := by
        rw [hie]
        simp [RingBuffer.getD, dif_pos (Nat.mod_lt _ (show 0 < n by omega)), writtenData]
      rw [hval, List.getElem_append_right (by simp [length_window]; omega)]
      simp [length_window, hie]

theorem window_push_full {b : RingBuffer α n} (hI : Inv b) (hf : b.num_elems = n) (x : α) :
    window (⟨writtenData b.data b.oldest x,
        (b.oldest + 1) % n, b.num_elems⟩ : RingBuffer α n) =
      (window b).drop 1 ++ [x] := by
  have hn : n ≠ 0 := by omega
  apply List.ext_getElem
  · simp [length_window]
    omega
  · intro i h1 h2
    rw [getElem_window]
    show RingBuffer.getD ⟨writtenData b.data b.oldest x, (b.oldest + 1) % n, b.num_elems⟩
        (((b.oldest + 1) % n + i) % n) = _
    have hi : i < b.num_elems := by
      simpa [length_window] using h1
    have harg : ((b.oldest + 1) % n + i) % n = (b.oldest + (i + 1)) % n := by
      rw [Nat.mod_add_mod]
      congr 1
      omega
    rw [harg]
    have hlt : (b.oldest + (i + 1)) % n < n := Nat.mod_lt _ (by omega)
    rcases Nat.lt_or_ge i (b.num_elems - 1) with hcase | hcase
    · have hne : (b.oldest + (i + 1)) % n ≠ b.oldest := by
        intro hcontra
        have hcontra2 : (b.oldest + (i + 1)) % n = (b.oldest + 0) % n := by
          rw [hcontra, Nat.add_zero, Nat.mod_eq_of_lt hI.1]
        have := add_mod_inj (a := b.oldest) (by omega) (by omega) hcontra2
        omega
      have hval : RingBuffer.getD ⟨writtenData b.data b.oldest x, (b.oldest + 1) % n,
          b.num_elems⟩ ((b.oldest + (i + 1)) % n) = b.getD ((b.oldest + (i + 1)) % n) := by
        simp [RingBuffer.getD, dif_pos hlt, writtenData, hne]
      rw [hval, List.getElem_append_left (by simp [length_window]; omega)]
      rw [List.getElem_drop, getElem_window]
      congr 2
      omega
    · have hie : i = b.num_elems - 1 := by omega
      have harg2 : (b.oldest + (i + 1)) % n = b.oldest := by
        have : i + 1 = n := by omega
        rw [this, Nat.add_mod_right, Nat.mod_eq_of_lt hI.1]
      rw [harg2]
      have hval : RingBuffer.getD ⟨writtenData b.data b.oldest x, (b.oldest + 1) % n,
          b.num_elems⟩ b.oldest = x := by
        simp [RingBuffer.getD, dif_pos hI.1, writtenData]
      rw [hval, List.getElem_append_right (by simp [length_window]; omega)]
      simp [length_window]

theorem window_advance {b : RingBuffer α n} (hI : Inv b) (k : Nat) :
    window (⟨b.data, (b.oldest + k) % n, b.num_elems - k⟩ : RingBuffer α n) =
      (window b).drop k := by
  have hn : n ≠ 0 := by omega
  apply List.ext_getElem
  · simp [length_window]
  · intro i h1 h2
    rw [getElem_window, List.getElem_drop, getElem_window]
    show RingBuffer.getD ⟨b.data, (b.oldest + k) % n, b.num_elems - k⟩
        (((b.oldest + k) % n + i) % n) = _
    have harg : ((b.oldest + k) % n + i) % n = (b.oldest + (k + i)) % n := by
      rw [Nat.mod_add_mod, Nat.add_assoc]
    rw [harg]
    rfl

end RingBuffer

/-! ## Sequential pops, the bulk-drain loop, and the iterators -/

namespace RingBuffer

variable {α : Type} {n : Nat} [Inhabited α]

theorem popN_spec (k : Nat) : ∀ b : RingBuffer α n, Inv b → k ≤ b.num_elems →
    popN k b = some ((window b).take k,
      ⟨b.data, (b.oldest + k) % n, b.num_elems - k⟩) := by
  induction k with
  | zero =>
    intro b hI _
    simp [popN, Nat.mod_eq_of_lt hI.1]
  | succ k ih =>
    intro b hI hk
    have h0 : b.num_elems ≠ 0 := by omega
    have hn : n ≠ 0 := by omega
    have hI2 : Inv (⟨b.data, (b.oldest + 1) % n, b.num_elems - 1⟩ : RingBuffer α n) :=
      ⟨Nat.mod_lt _ (by omega), by simp; omega⟩
    rw [popN, pop_not_empty hI.1 h0]
    simp only [Option.bind_eq_bind, Option.some_bind]
    rw [ih _ hI2 (by simp; omega)]
    simp only [Option.some_bind, Option.pure_def]
    have harg : ((b.oldest + 1) % n + k) % n = (b.oldest + (k + 1)) % n := by
      rw [Nat.mod_add_mod]
      congr 1
      omega
    have hsub : b.num_elems - 1 - k = b.num_elems - (k + 1) := by omega
    rw [window_pop hI h0, harg, hsub]
    simp [List.take_succ_cons]

theorem popManyLoop_spec (k : Nat) : ∀ (b : RingBuffer α n) (buf : List α), Inv b →
    k ≤ b.num_elems → k ≤ buf.length →
    popManyLoop k b buf = some (⟨b.data, (b.oldest + k) % n, b.num_elems - k⟩,
      (window b).take k ++ buf.drop k) := by
  induction k with
  | zero =>
    intro b buf hI _ _
    simp [popManyLoop, Nat.mod_eq_of_lt hI.1]
  | succ k ih =>
    intro b buf hI hk hbuf
    match buf with
    | [] => simp at hbuf
    | y :: rest =>
      have h0 : b.num_elems ≠ 0 := by omega
      have hI2 : Inv (⟨b.data, (b.oldest + 1) % n, b.num_elems - 1⟩ : RingBuffer α n) :=
        ⟨Nat.mod_lt _ (by omega), by simp; omega⟩
      rw [popManyLoop, pop_not_empty hI.1 h0]
      simp only [Option.bind_eq_bind, Option.some_bind]
      rw [ih _ rest hI2 (by simp; omega) (by simpa using hbuf)]
      simp only [Option.some_bind, Option.pure_def]
      have harg : ((b.oldest + 1) % n + k) % n = (b.oldest + (k + 1)) % n := by
        rw [Nat.mod_add_mod]
        congr 1
        omega
      have hsub : b.num_elems - 1 - k = b.num_elems - (k + 1) := by omega
      rw [window_pop hI h0, harg, hsub]
      simp [List.take_succ_cons, List.drop_succ_cons]

theorem pop_many_spec {b : RingBuffer α n} (hI : Inv b) (buf : List α) :
    pop_many b buf = some (Nat.min b.len buf.length,
      ⟨b.data, (b.oldest + Nat.min b.len buf.length) % n,
        b.num_elems - Nat.min b.len buf.length⟩,
      (window b).take (Nat.min b.len buf.length) ++
        buf.drop (Nat.min b.len buf.length)) := by
  have h := popManyLoop_spec (Nat.min b.len buf.length) b buf hI
    (Nat.min_le_left _ _) (Nat.min_le_right _ _)
  rw [pop_many, h]
  rfl

end RingBuffer

theorem iterNextN_spec {α : Type} {n : Nat} [Inhabited α] (k : Nat) :
    ∀ (b : RingBuffer α n) (c : Nat), RingBuffer.Inv b → c ≤ b.num_elems →
    iterNextN k (⟨b, c⟩ : IntoIteratorRingbuffer α n) =
      some ((((RingBuffer.window b).drop c).take k).map some ++
          List.replicate (k - (b.num_elems - c)) none,
        ⟨b, Nat.min (c + k) b.num_elems⟩) := by
  induction k with
  | zero =>
    intro b c hI hc
    simp [iterNextN, Nat.min_eq_left hc]
  | succ k ih =>
    intro b c hI hc
    rcases Nat.lt_or_ge c b.num_elems with hlt | hge
    · have hn : n ≠ 0 := by
        have := hI.1
        omega
      have hm : (b.oldest + c) % n < n := Nat.mod_lt _ (by omega)
      have hnext : IntoIteratorRingbuffer.next (⟨b, c⟩ : IntoIteratorRingbuffer α n) =
          some (some (b.getD ((b.oldest + c) % n)), ⟨b, c + 1⟩) := by
        simp only [IntoIteratorRingbuffer.next, hlt, if_true, rustMod, hn, if_false,
          Option.bind_eq_bind, Option.some_bind, RingBuffer.readSlot, dif_pos hm,
          Option.pure_def, RingBuffer.getD]
      rw [iterNextN, hnext]
      simp only [Option.bind_eq_bind, Option.some_bind]
      rw [ih b (c + 1) hI (by omega)]
      simp only [Option.some_bind, Option.pure_def]
      have hdrop : (RingBuffer.window b).drop c =
          b.getD ((b.oldest + c) % n) :: (RingBuffer.window b).drop (c + 1) := by
        rw [List.drop_eq_getElem_cons (by rw [RingBuffer.length_window]; omega)]
        rw [RingBuffer.getElem_window]
      rw [hdrop]
      have hrep : k + 1 - (b.num_elems - c) = k - (b.num_elems - (c + 1)) := by omega
      have hmin : Nat.min (c + 1 + k) b.num_elems = Nat.min (c + (k + 1)) b.num_elems := by
        congr 1
        omega
      rw [hrep, hmin]
      simp [List.take_succ_cons]
    · have hce : c = b.num_elems := by omega
      have hnext : IntoIteratorRingbuffer.next (⟨b, c⟩ : IntoIteratorRingbuffer α n) =
          some (none, ⟨b, c⟩) := by
        simp [IntoIteratorRingbuffer.next, Nat.not_lt.mpr hge]
      rw [iterNextN, hnext]
      simp only [Option.bind_eq_bind, Option.some_bind]
      rw [ih b c hI hc]
      simp only [Option.some_bind, Option.pure_def]
      have hdrop : (RingBuffer.window b).drop c = [] := by
        apply List.drop_eq_nil_of_le
        rw [RingBuffer.length_window]
        omega
      have hmin1 : Nat.min (c + k) b.num_elems = b.num_elems :=
        Nat.min_eq_right (by omega)
      have hmin2 : Nat.min (c + (k + 1)) b.num_elems = b.num_elems :=
        Nat.min_eq_right (by omega)
      rw [hdrop, hmin1, hmin2]
      simp only [List.take_nil, List.map_nil, List.nil_append, Option.some.injEq,
        Prod.mk.injEq, and_true]
      have hr1 : k - (b.num_elems - c) = k := by omega
      have hr2 : k + 1 - (b.num_elems - c) = k + 1 := by omega
      rw [hr1, hr2]
      simp [List.replicate_succ]

theorem consNextN_spec {α : Type} {n : Nat} [Inhabited α] (k : Nat) :
    ∀ b : RingBuffer α n, RingBuffer.Inv b →
    consNextN k (⟨b⟩ : ConsumingIntoIteratorRingbuffer α n) =
      some (((RingBuffer.window b).take k).map some ++
          List.replicate (k - b.num_elems) none,
        ⟨⟨b.data, (b.oldest + Nat.min k b.num_elems) % n, b.num_elems - k⟩⟩) := by
  induction k with
  | zero =>
    intro b hI
    simp [consNextN, Nat.mod_eq_of_lt hI.1]
  | succ k ih =>
    intro b hI
    rcases eq_or_ne b.num_elems 0 with h0 | h0
    · have hnext : ConsumingIntoIteratorRingbuffer.next
          (⟨b⟩ : ConsumingIntoIteratorRingbuffer α n) = some (none, ⟨b⟩) := by
        simp [ConsumingIntoIteratorRingbuffer.next, RingBuffer.pop_empty h0]
      rw [consNextN, hnext]
      simp only [Option.bind_eq_bind, Option.some_bind]
      rw [ih b hI]
      simp only [Option.some_bind, Option.pure_def]
      have hwin : RingBuffer.window b = [] := by
        have := RingBuffer.length_window b
        rw [h0] at this
        exact List.length_eq_zero.mp this
      rw [hwin]
      simp [h0, List.replicate_succ]
    · have hnext : ConsumingIntoIteratorRingbuffer.next
          (⟨b⟩ : ConsumingIntoIteratorRingbuffer α n) =
          some (some (b.getD b.oldest),
            ⟨⟨b.data, (b.oldest + 1) % n, b.num_elems - 1⟩⟩) := by
        simp [ConsumingIntoIteratorRingbuffer.next, RingBuffer.pop_not_empty hI.1 h0]
      have hI2 : RingBuffer.Inv
          (⟨b.data, (b.oldest + 1) % n, b.num_elems - 1⟩ : RingBuffer α n) :=
        ⟨Nat.mod_lt _ (by have := hI.1; omega), by simp; have := hI.2; omega⟩
      rw [consNextN, hnext]
      simp only [Option.bind_eq_bind, Option.some_bind]
      rw [ih _ hI2]
      simp only [Option.some_bind, Option.pure_def]
      rw [RingBuffer.window_pop hI h0]
      have hrep : k + 1 - b.num_elems = k - (b.num_elems - 1) := by omega
      have hminstep : Nat.min (k + 1) b.num_elems = Nat.min k (b.num_elems - 1) + 1 := by
        rcases Nat.le_total k (b.num_elems - 1) with hle | hle
        · rw [show Nat.min (k + 1) b.num_elems = k + 1 from
              Nat.min_eq_left (by omega),
            show Nat.min k (b.num_elems - 1) = k from Nat.min_eq_left hle]
        · rw [show Nat.min (k + 1) b.num_elems = b.num_elems from
              Nat.min_eq_right (by omega),
            show Nat.min k (b.num_elems - 1) = b.num_elems - 1 from
              Nat.min_eq_right hle]
          omega
      have harg : ((b.oldest + 1) % n + Nat.min k (b.num_elems - 1)) % n =
          (b.oldest + Nat.min (k + 1) b.num_elems) % n := by
        rw [Nat.mod_add_mod, hminstep]
        congr 1
        omega
      have hsub : b.num_elems - 1 - k = b.num_elems - (k + 1) := by omega
      rw [hrep, harg, hsub]
      simp [List.take_succ_cons]

/-! ## Invariant preservation and reachability -/

/-- Every public operation on a state satisfying the data-model invariant
succeeds (no panic) and preserves the invariant. -/
theorem runOp_inv {α : Type} {n : Nat} [Inhabited α] {b : RingBuffer α n}
    (hI : RingBuffer.Inv b) (op : Op α) :
    ∃ b2, runOp b op = some b2 ∧ RingBuffer.Inv b2 := by
  have hn : n ≠ 0 := by
    have := hI.1
    omega
  cases op with
  | pushOverwrite x =>
    rcases eq_or_ne b.num_elems n with hf | hf
    · refine ⟨⟨RingBuffer.writtenData b.data b.oldest x, (b.oldest + 1) % n,
        b.num_elems⟩, ?_, ?_⟩
      · rw [runOp, RingBuffer.push_overwrite_full x hI hf]
        rfl
      · exact ⟨Nat.mod_lt _ (by omega), by simpa [hf] using hI.2⟩
    · refine ⟨⟨RingBuffer.writtenData b.data ((b.oldest + b.num_elems) % n) x,
        b.oldest, b.num_elems + 1⟩, ?_, ?_⟩
      · rw [runOp, RingBuffer.push_overwrite_not_full x hn hf]
        rfl
      · exact ⟨hI.1, by
          simp
          have := hI.2
          omega⟩
  | pushUnlessFull x =>
    rcases eq_or_ne b.num_elems n with hf | hf
    · refine ⟨b, ?_, hI⟩
      rw [runOp, RingBuffer.push_unless_full_full x hf]
      rfl
    · refine ⟨⟨RingBuffer.writtenData b.data ((b.oldest + b.num_elems) % n) x,
        b.oldest, b.num_elems + 1⟩, ?_, ?_⟩
      · rw [runOp, RingBuffer.push_unless_full_not_full x hn hf]
        rfl
      · exact ⟨hI.1, by
          simp
          have := hI.2
          omega⟩
  | popOp =>
    rcases eq_or_ne b.num_elems 0 with h0 | h0
    · refine ⟨b, ?_, hI⟩
      rw [runOp, RingBuffer.pop_empty h0]
      rfl
    · refine ⟨⟨b.data, (b.oldest + 1) % n, b.num_elems - 1⟩, ?_, ?_⟩
      · rw [runOp, RingBuffer.pop_not_empty hI.1 h0]
        rfl
      · exact ⟨Nat.mod_lt _ (by omega), by
          simp
          have := hI.2
          omega⟩
  | peekOp =>
    rcases eq_or_ne b.num_elems 0 with h0 | h0
    · exact ⟨b, by rw [runOp, RingBuffer.peek_empty h0]; rfl, hI⟩
    · exact ⟨b, by rw [runOp, RingBuffer.peek_not_empty hI.1 h0]; rfl, hI⟩
  | popMany dest =>
    refine ⟨⟨b.data, (b.oldest + Nat.min b.len dest.length) % n,
      b.num_elems - Nat.min b.len dest.length⟩, ?_, ?_⟩
    · rw [runOp, RingBuffer.pop_many_spec hI dest]
      rfl
    · exact ⟨Nat.mod_lt _ (by omega), by
        simp
        have := hI.2
        omega⟩
  | iterate k =>
    refine ⟨b, ?_, hI⟩
    rw [runOp, show b.iter = (⟨b, 0⟩ : IntoIteratorRingbuffer α n) from rfl,
      iterNextN_spec k b 0 hI (Nat.zero_le _)]
    rfl

/-- Invariant preservation along a whole operation sequence. -/
theorem runOps_inv {α : Type} {n : Nat} [Inhabited α] (ops : List (Op α)) :
    ∀ {b : RingBuffer α n}, RingBuffer.Inv b →
    ∃ b2, runOps b ops = some b2 ∧ RingBuffer.Inv b2 := by
  induction ops with
  | nil => exact fun hI => ⟨_, rfl, hI⟩
  | cons op rest ih =>
    intro b hI
    obtain ⟨b2, hrun, hI2⟩ := runOp_inv hI op
    obtain ⟨b3, hrun3, hI3⟩ := ih hI2
    exact ⟨b3, by rw [runOps, hrun]; simpa using hrun3, hI3⟩

/-- Every reachable state satisfies the data-model invariant. -/
theorem reachable_inv {α : Type} {n : Nat} [Inhabited α] (hn : 1 ≤ n)
    {b : RingBuffer α n} (hR : Reachable b) : RingBuffer.Inv b := by
  obtain ⟨ops, hops⟩ := hR
  obtain ⟨b2, hrun, hI2⟩ := runOps_inv ops (RingBuffer.inv_new hn)
  rw [hops] at hrun
  cases hrun
  exact hI2

/-! ## Accepted insertions (either policy) for the FIFO property -/

/-- Push a list of values left to right; each entry chooses the policy
(`true` = `push_overwrite`, `false` = `push_unless_full`) and every insertion
must be accepted: overwrite-insertions must not evict, reject-insertions must
not reject. -/
def pushAllAccepted {α : Type} {n : Nat} [Inhabited α] :
    RingBuffer α n → List (Bool × α) → Option (RingBuffer α n)
  | b, [] => some b
  | b, (m, x) :: rest =>
    if m then
      match b.push_overwrite x with
      | some (none, b2) => pushAllAccepted b2 rest
      | _ => none
    else
      match b.push_unless_full x with
      | some (Except.ok _, b2) => pushAllAccepted b2 rest
      | _ => none

theorem pushAllAccepted_spec {α : Type} {n : Nat} [Inhabited α] (ps : List (Bool × α)) :
    ∀ b : RingBuffer α n, RingBuffer.Inv b → b.num_elems + ps.length ≤ n →
    ∃ b2, pushAllAccepted b ps = some b2 ∧ RingBuffer.Inv b2 ∧
      RingBuffer.window b2 = RingBuffer.window b ++ ps.map Prod.snd ∧
      b2.num_elems = b.num_elems + ps.length ∧ b2.oldest = b.oldest := by
  induction ps with
  | nil =>
    intro b hI _
    exact ⟨b, rfl, hI, by simp, by simp, rfl⟩
  | cons p rest ih =>
    intro b hI hlen
    obtain ⟨m, x⟩ := p
    have hn : n ≠ 0 := by
      have := hI.1
      omega
    have hf : b.num_elems ≠ n := by
      simp at hlen
      omega
    have hstep : RingBuffer.Inv (⟨RingBuffer.writtenData b.data
        ((b.oldest + b.num_elems) % n) x, b.oldest, b.num_elems + 1⟩ : RingBuffer α n) :=
      ⟨hI.1, by
        simp
        have := hI.2
        omega⟩
    obtain ⟨b3, hrun, hI3, hwin, hnum, hold⟩ := ih _ hstep (by
      simp only
      simp at hlen ⊢
      omega)
    cases m with
    | true =>
      refine ⟨b3, ?_, hI3, ?_, ?_, hold⟩
      · rw [pushAllAccepted, if_pos rfl, RingBuffer.push_overwrite_not_full x hn hf]
        exact hrun
      · rw [hwin, RingBuffer.window_push hI hf x]
        simp
      · simp only [hnum]
        simp
        omega
    | false =>
      refine ⟨b3, ?_, hI3, ?_, ?_, hold⟩
      · rw [pushAllAccepted, if_neg (by simp), RingBuffer.push_unless_full_not_full x hn hf]
        exact hrun
      · rw [hwin, RingBuffer.window_push hI hf x]
        simp
      · simp only [hnum]
        simp
        omega

/-! ## Small helpers for `Nat.min` in statement form -/

theorem natMin_eq_left {a b : Nat} (h : a ≤ b) : Nat.min a b = a :=
  Nat.min_eq_left h

theorem natMin_eq_right {a b : Nat} (h : b ≤ a) : Nat.min a b = b :=
  Nat.min_eq_right h

/-! ## The claims -/

/-- C1: for every capacity `n ≥ 1`, inserting `N ≤ n` distinct values into a
fresh buffer — each insertion through either `push_overwrite` or
`push_unless_full`, and each accepted (no eviction, no rejection) — and then
popping `N` times yields exactly the inserted values in insertion order,
leaving the buffer empty. -/
theorem C1_fifo_order {α : Type} [Inhabited α] {n : Nat} (hn : 1 ≤ n)
    (ps : List (Bool × α)) (hlen : ps.length ≤ n) (hnd : (ps.map Prod.snd).Nodup) :
    ∃ b bF, pushAllAccepted (RingBuffer.new α n) ps = some b ∧
      RingBuffer.popN ps.length b = some (ps.map Prod.snd, bF) ∧
      RingBuffer.len bF = 0 := by
  obtain ⟨b, hrun, hI, hwin, hnum, hold⟩ := pushAllAccepted_spec ps (RingBuffer.new α n)
    (RingBuffer.inv_new hn) (by simpa [RingBuffer.new] using hlen)
  have hnum0 : b.num_elems = ps.length := by
    simpa [RingBuffer.new] using hnum
  have hwb : RingBuffer.window b = ps.map Prod.snd := by
    rw [hwin, RingBuffer.window_new, List.nil_append]
  have hspec := RingBuffer.popN_spec ps.length b hI (by omega)
  refine ⟨b, ⟨b.data, (b.oldest + ps.length) % n, b.num_elems - ps.length⟩,
    hrun, ?_, ?_⟩
  · rw [hspec, hwb]
    congr 1
    rw [show ps.length = (ps.map Prod.snd).length by simp, List.take_length]
  · simp [RingBuffer.len]
    omega

theorem C1_fifo_order_witness :
    1 ≤ 3 ∧
    ([((true : Bool), (10 : Nat)), (false, 20), (true, 30)].length ≤ 3) ∧
    (([((true : Bool), (10 : Nat)), (false, 20), (true, 30)].map Prod.snd).Nodup) ∧
    (∃ b bF, pushAllAccepted (RingBuffer.new Nat 3)
        [(true, 10), (false, 20), (true, 30)] = some b ∧
      RingBuffer.popN 3 b = some ([10, 20, 30], bF) ∧
      RingBuffer.len bF = 0) :=
  ⟨by decide, by decide, by decide,
    C1_fifo_order (by decide) [(true, 10), (false, 20), (true, 30)]
      (by decide) (by decide)⟩

/-- C2: for every capacity `n ≥ 1` and every state reachable from `new` by
any sequence of operations, `0 ≤ len ≤ n`, `is_full ↔ len = n`,
`is_empty ↔ len = 0`, and the `oldest` index lies in `[0, n)`. -/
theorem C2_capacity_invariants {α : Type} [Inhabited α] {n : Nat} (hn : 1 ≤ n)
    {b : RingBuffer α n} (hR : Reachable b) :
    0 ≤ RingBuffer.len b ∧ RingBuffer.len b ≤ n ∧
      (RingBuffer.is_full b = true ↔ RingBuffer.len b = n) ∧
      (RingBuffer.is_empty b = true ↔ RingBuffer.len b = 0) ∧
      b.oldest < n := by
  have hI := reachable_inv hn hR
  refine ⟨Nat.zero_le _, hI.2, ?_, ?_, hI.1⟩
  · simp [RingBuffer.is_full, RingBuffer.len]
  · simp [RingBuffer.is_empty, RingBuffer.len]

theorem C2_capacity_invariants_witness :
    1 ≤ 2 ∧ Reachable (RingBuffer.new Nat 2) ∧
    (0 ≤ RingBuffer.len (RingBuffer.new Nat 2) ∧
      RingBuffer.len (RingBuffer.new Nat 2) ≤ 2 ∧
      (RingBuffer.is_full (RingBuffer.new Nat 2) = true ↔
        RingBuffer.len (RingBuffer.new Nat 2) = 2) ∧
      (RingBuffer.is_empty (RingBuffer.new Nat 2) = true ↔
        RingBuffer.len (RingBuffer.new Nat 2) = 0) ∧
      (RingBuffer.new Nat 2).oldest < 2) :=
  ⟨by decide, ⟨[], rfl⟩, C2_capacity_invariants (by decide) ⟨[], rfl⟩⟩

/-- C4: `push_unless_full` on a full buffer returns `Err(BufferFull)` and
leaves the whole state (data array, oldest, count) untouched, for every
capacity and every full state; on a non-full buffer (capacity ≥ 1) it writes
the element at slot `(oldest + count) % n`, increments the count, and returns
`Ok(())`. -/
theorem C4_push_unless_full_semantics {α : Type} [Inhabited α] {n : Nat}
    (b : RingBuffer α n) (x : α) :
    (RingBuffer.is_full b = true →
      RingBuffer.push_unless_full b x = some (Except.error Error.BufferFull, b)) ∧
    (RingBuffer.is_full b = false → 1 ≤ n →
      RingBuffer.push_unless_full b x = some (Except.ok (),
        ⟨RingBuffer.writtenData b.data ((b.oldest + b.num_elems) % n) x,
         b.oldest, b.num_elems + 1⟩)) := by
  constructor
  · intro hf
    simp only [RingBuffer.is_full, RingBuffer.len, beq_iff_eq] at hf
    exact RingBuffer.push_unless_full_full x hf
  · intro hf hn
    simp only [RingBuffer.is_full, RingBuffer.len, beq_eq_false_iff_ne, ne_eq] at hf
    exact RingBuffer.push_unless_full_not_full x (by omega) hf

theorem C4_push_unless_full_semantics_witness :
    (RingBuffer.is_full (⟨fun _ => 7, 0, 1⟩ : RingBuffer Nat 1) = true ∧
      RingBuffer.push_unless_full (⟨fun _ => 7, 0, 1⟩ : RingBuffer Nat 1) 5 =
        some (Except.error Error.BufferFull, (⟨fun _ => 7, 0, 1⟩ : RingBuffer Nat 1))) ∧
    (RingBuffer.is_full (RingBuffer.new Nat 2) = false ∧ 1 ≤ 2 ∧
      RingBuffer.push_unless_full (RingBuffer.new Nat 2) 5 = some (Except.ok (),
        ⟨RingBuffer.writtenData (RingBuffer.new Nat 2).data
          (((RingBuffer.new Nat 2).oldest + (RingBuffer.new Nat 2).num_elems) % 2) 5,
         (RingBuffer.new Nat 2).oldest, (RingBuffer.new Nat 2).num_elems + 1⟩)) :=
  ⟨⟨by decide, (C4_push_unless_full_semantics (⟨fun _ => 7, 0, 1⟩ : RingBuffer Nat 1) 5).1
      (by decide)⟩,
   ⟨by decide, by decide, (C4_push_unless_full_semantics (RingBuffer.new Nat 2) 5).2
      (by decide) (by decide)⟩⟩

/-- C8: on an empty buffer, `pop` returns `None` leaving the state (data,
oldest, count) unchanged and `peek` returns `None` without mutating anything
(for every capacity and every state); on a non-empty buffer with a valid head
index, `peek` returns exactly the element `pop` would return, and `peek`
performs no mutation. -/
theorem C8_empty_pop_peek {α : Type} [Inhabited α] {n : Nat} (b : RingBuffer α n) :
    (RingBuffer.is_empty b = true →
      RingBuffer.pop b = some (none, b) ∧ RingBuffer.peek b = some none) ∧
    (RingBuffer.is_empty b = false → b.oldest < n →
      ∃ v b2, RingBuffer.pop b = some (some v, b2) ∧
        RingBuffer.peek b = some (some v)) := by
  constructor
  · intro he
    simp only [RingBuffer.is_empty, RingBuffer.len, beq_iff_eq] at he
    exact ⟨RingBuffer.pop_empty he, RingBuffer.peek_empty he⟩
  · intro he hold
    simp only [RingBuffer.is_empty, RingBuffer.len, beq_eq_false_iff_ne, ne_eq] at he
    exact ⟨b.getD b.oldest, ⟨b.data, (b.oldest + 1) % n, b.num_elems - 1⟩,
      RingBuffer.pop_not_empty hold he, RingBuffer.peek_not_empty hold he⟩

theorem C8_empty_pop_peek_witness :
    (RingBuffer.is_empty (RingBuffer.new Nat 4) = true ∧
      RingBuffer.pop (RingBuffer.new Nat 4) = some (none, RingBuffer.new Nat 4) ∧
      RingBuffer.peek (RingBuffer.new Nat 4) = some none) ∧
    (RingBuffer.is_empty (⟨fun _ => 9, 0, 1⟩ : RingBuffer Nat 2) = false ∧
      (0 : Nat) < 2 ∧
      (∃ v b2, RingBuffer.pop (⟨fun _ => 9, 0, 1⟩ : RingBuffer Nat 2) =
          some (some v, b2) ∧
        RingBuffer.peek (⟨fun _ => 9, 0, 1⟩ : RingBuffer Nat 2) = some (some v))) :=
  ⟨⟨by decide, (C8_empty_pop_peek (RingBuffer.new Nat 4)).1 (by decide)⟩,
   ⟨by decide, by decide, (C8_empty_pop_peek (⟨fun _ => 9, 0, 1⟩ : RingBuffer Nat 2)).2
      (by decide) (by decide)⟩⟩

/-- C10: with capacity 0, the fresh buffer reports empty and full at the same
time; `push_unless_full` always rejects with `BufferFull` leaving the state
untouched, and `pop` / `peek` return `None` — all four operations return a
result instead of panicking. -/
theorem C10_size_zero_graceful (x : Nat) :
    RingBuffer.is_empty (RingBuffer.new Nat 0) = true ∧
    RingBuffer.is_full (RingBuffer.new Nat 0) = true ∧
    RingBuffer.push_unless_full (RingBuffer.new Nat 0) x =
      some (Except.error Error.BufferFull, RingBuffer.new Nat 0) ∧
    RingBuffer.pop (RingBuffer.new Nat 0) = some (none, RingBuffer.new Nat 0) ∧
    RingBuffer.peek (RingBuffer.new Nat 0) = some none :=
  ⟨rfl, rfl, rfl, rfl, rfl⟩

/-- C3: `push_overwrite` on a full buffer returns the element that was at the
logical head, makes the pushed element the last element of the window, and
keeps the length at capacity; on a non-full buffer it returns `None`, appends
at the tail and increments the length.  It always inserts its argument. -/
theorem C3_push_overwrite_semantics {α : Type} [Inhabited α] {n : Nat}
    {b : RingBuffer α n} (hI : RingBuffer.Inv b) (x : α) :
    (RingBuffer.is_full b = true →
      ∃ b2, RingBuffer.push_overwrite b x = some ((RingBuffer.window b).head?, b2) ∧
        (RingBuffer.window b).head? ≠ none ∧
        RingBuffer.window b2 = (RingBuffer.window b).tail ++ [x] ∧
        (RingBuffer.window b2).getLast? = some x ∧
        RingBuffer.len b2 = RingBuffer.len b ∧ RingBuffer.len b2 = n) ∧
    (RingBuffer.is_full b = false →
      ∃ b2, RingBuffer.push_overwrite b x = some (none, b2) ∧
        RingBuffer.window b2 = RingBuffer.window b ++ [x] ∧
        (RingBuffer.window b2).getLast? = some x ∧
        RingBuffer.len b2 = RingBuffer.len b + 1) := by
  have hn : n ≠ 0 := by
    have := hI.1
    omega
  constructor
  · intro hf
    simp only [RingBuffer.is_full, RingBuffer.len, beq_iff_eq] at hf
    have h0 : b.num_elems ≠ 0 := by omega
    have hhead : (RingBuffer.window b).head? = some (b.getD b.oldest) := by
      rw [RingBuffer.window_pop hI h0]
      rfl
    refine ⟨⟨RingBuffer.writtenData b.data b.oldest x, (b.oldest + 1) % n,
      b.num_elems⟩, ?_, ?_, ?_, ?_, rfl, hf⟩
    · rw [RingBuffer.push_overwrite_full x hI hf, hhead]
    · rw [hhead]
      simp
    · rw [RingBuffer.window_push_full hI hf x, List.drop_one]
    · rw [RingBuffer.window_push_full hI hf x, List.getLast?_concat]
  · intro hf
    simp only [RingBuffer.is_full, RingBuffer.len, beq_eq_false_iff_ne, ne_eq] at hf
    refine ⟨⟨RingBuffer.writtenData b.data ((b.oldest + b.num_elems) % n) x,
      b.oldest, b.num_elems + 1⟩, ?_, ?_, ?_, rfl⟩
    · exact RingBuffer.push_overwrite_not_full x hn hf
    · exact RingBuffer.window_push hI hf x
    · rw [RingBuffer.window_push hI hf x, List.getLast?_concat]

theorem C3_push_overwrite_semantics_witness :
    RingBuffer.Inv (⟨fun _ => 1, 0, 2⟩ : RingBuffer Nat 2) ∧
    RingBuffer.Inv (RingBuffer.new Nat 2) ∧
    RingBuffer.is_full (⟨fun _ => 1, 0, 2⟩ : RingBuffer Nat 2) = true ∧
    RingBuffer.is_full (RingBuffer.new Nat 2) = false ∧
    (∃ b2, RingBuffer.push_overwrite (⟨fun _ => 1, 0, 2⟩ : RingBuffer Nat 2) 9 =
        some ((RingBuffer.window (⟨fun _ => 1, 0, 2⟩ : RingBuffer Nat 2)).head?, b2) ∧
      (RingBuffer.window (⟨fun _ => 1, 0, 2⟩ : RingBuffer Nat 2)).head? ≠ none ∧
      RingBuffer.window b2 =
        (RingBuffer.window (⟨fun _ => 1, 0, 2⟩ : RingBuffer Nat 2)).tail ++ [9] ∧
      (RingBuffer.window b2).getLast? = some 9 ∧
      RingBuffer.len b2 = RingBuffer.len (⟨fun _ => 1, 0, 2⟩ : RingBuffer Nat 2) ∧
      RingBuffer.len b2 = 2) ∧
    (∃ b2, RingBuffer.push_overwrite (RingBuffer.new Nat 2) 9 = some (none, b2) ∧
      RingBuffer.window b2 = RingBuffer.window (RingBuffer.new Nat 2) ++ [9] ∧
      (RingBuffer.window b2).getLast? = some 9 ∧
      RingBuffer.len b2 = RingBuffer.len (RingBuffer.new Nat 2) + 1) :=
  ⟨by decide, by decide, by decide, by decide,
    (C3_push_overwrite_semantics (by decide) 9).1 (by decide),
    (C3_push_overwrite_semantics (by decide) 9).2 (by decide)⟩

/-- C5: `pop_many` into a destination of length `L` returns
`min(len, L)`, copies exactly that many elements in FIFO order into the
first `min(len, L)` destination slots, leaves the remaining destination
slots unchanged, removes exactly that many elements, and produces the same
copied sequence and the same final buffer as that many sequential `pop`
calls. -/
theorem C5_pop_many_equiv {α : Type} [Inhabited α] {n : Nat} {b : RingBuffer α n}
    (hI : RingBuffer.Inv b) (buf : List α) :
    ∃ b2, RingBuffer.pop_many b buf =
        some (Nat.min (RingBuffer.len b) buf.length, b2,
          (RingBuffer.window b).take (Nat.min (RingBuffer.len b) buf.length) ++
            buf.drop (Nat.min (RingBuffer.len b) buf.length)) ∧
      RingBuffer.popN (Nat.min (RingBuffer.len b) buf.length) b =
        some ((RingBuffer.window b).take (Nat.min (RingBuffer.len b) buf.length), b2) ∧
      ((RingBuffer.window b).take (Nat.min (RingBuffer.len b) buf.length)).length =
        Nat.min (RingBuffer.len b) buf.length ∧
      RingBuffer.len b2 = RingBuffer.len b - Nat.min (RingBuffer.len b) buf.length := by
  refine ⟨⟨b.data, (b.oldest + Nat.min (RingBuffer.len b) buf.length) % n,
    b.num_elems - Nat.min (RingBuffer.len b) buf.length⟩, ?_, ?_, ?_, rfl⟩
  · exact RingBuffer.pop_many_spec hI buf
  · exact RingBuffer.popN_spec _ b hI (Nat.min_le_left _ _)
  · rw [List.length_take, RingBuffer.length_window]
    exact natMin_eq_left (Nat.min_le_left _ _)

theorem C5_pop_many_equiv_witness :
    RingBuffer.Inv (⟨fun _ => 3, 0, 2⟩ : RingBuffer Nat 2) ∧
    (∃ b2, RingBuffer.pop_many (⟨fun _ => 3, 0, 2⟩ : RingBuffer Nat 2) [0, 0, 0] =
        some (Nat.min (RingBuffer.len (⟨fun _ => 3, 0, 2⟩ : RingBuffer Nat 2))
            [(0 : Nat), 0, 0].length, b2,
          (RingBuffer.window (⟨fun _ => 3, 0, 2⟩ : RingBuffer Nat 2)).take
              (Nat.min (RingBuffer.len (⟨fun _ => 3, 0, 2⟩ : RingBuffer Nat 2))
                [(0 : Nat), 0, 0].length) ++
            [(0 : Nat), 0, 0].drop
              (Nat.min (RingBuffer.len (⟨fun _ => 3, 0, 2⟩ : RingBuffer Nat 2))
                [(0 : Nat), 0, 0].length)) ∧
      RingBuffer.popN (Nat.min (RingBuffer.len (⟨fun _ => 3, 0, 2⟩ : RingBuffer Nat 2))
          [(0 : Nat), 0, 0].length) (⟨fun _ => 3, 0, 2⟩ : RingBuffer Nat 2) =
        some ((RingBuffer.window (⟨fun _ => 3, 0, 2⟩ : RingBuffer Nat 2)).take
          (Nat.min (RingBuffer.len (⟨fun _ => 3, 0, 2⟩ : RingBuffer Nat 2))
            [(0 : Nat), 0, 0].length), b2) ∧
      ((RingBuffer.window (⟨fun _ => 3, 0, 2⟩ : RingBuffer Nat 2)).take
          (Nat.min (RingBuffer.len (⟨fun _ => 3, 0, 2⟩ : RingBuffer Nat 2))
            [(0 : Nat), 0, 0].length)).length =
        Nat.min (RingBuffer.len (⟨fun _ => 3, 0, 2⟩ : RingBuffer Nat 2))
          [(0 : Nat), 0, 0].length ∧
      RingBuffer.len b2 = RingBuffer.len (⟨fun _ => 3, 0, 2⟩ : RingBuffer Nat 2) -
        Nat.min (RingBuffer.len (⟨fun _ => 3, 0, 2⟩ : RingBuffer Nat 2))
          [(0 : Nat), 0, 0].length) :=
  ⟨by decide, C5_pop_many_equiv (by decide) [0, 0, 0]⟩

/-- C6 counterexample: with capacity 0, `push_overwrite` evaluates
`(oldest + num_elems) % SIZE` before checking fullness; the remainder by zero
panics, modelled here as `none`.  So the claim that every core operation is
total for every `SIZE`, including `SIZE = 0`, is false. -/
theorem C6_size_zero_push_overwrite_panics :
    RingBuffer.push_overwrite (RingBuffer.new Nat 0) 5 = none := rfl

/-- C6 (amended): for every capacity `n ≥ 1` and every reachable state, each
core operation — `push_overwrite`, `push_unless_full`, `pop`, `peek`,
`pop_many`, both iterators' `next` (iterated any number of times), and any
further operation sequence — returns a result rather than panicking.
(`new`, `len`, `is_empty` and `is_full` are total by construction.)
`SIZE = 0` must be excluded: there `push_overwrite` panics. -/
theorem C6_no_panic_amended {α : Type} [Inhabited α] {n : Nat} (hn : 1 ≤ n)
    {b : RingBuffer α n} (hR : Reachable b) :
    (∀ x, (RingBuffer.push_overwrite b x).isSome = true) ∧
    (∀ x, (RingBuffer.push_unless_full b x).isSome = true) ∧
    (RingBuffer.pop b).isSome = true ∧
    (RingBuffer.peek b).isSome = true ∧
    (∀ dest : List α, (RingBuffer.pop_many b dest).isSome = true) ∧
    (∀ k, (iterNextN k (RingBuffer.iter b)).isSome = true) ∧
    (∀ k, (consNextN k (RingBuffer.into_iter b)).isSome = true) ∧
    (∀ ops : List (Op α), (runOps b ops).isSome = true) := by
  have hI := reachable_inv hn hR
  have hn0 : n ≠ 0 := by omega
  refine ⟨?_, ?_, ?_, ?_, ?_, ?_, ?_, ?_⟩
  · intro x
    rcases eq_or_ne b.num_elems n with hf | hf
    · rw [RingBuffer.push_overwrite_full x hI hf]
      rfl
    · rw [RingBuffer.push_overwrite_not_full x hn0 hf]
      rfl
  · intro x
    rcases eq_or_ne b.num_elems n with hf | hf
    · rw [RingBuffer.push_unless_full_full x hf]
      rfl
    · rw [RingBuffer.push_unless_full_not_full x hn0 hf]
      rfl
  · rcases eq_or_ne b.num_elems 0 with h0 | h0
    · rw [RingBuffer.pop_empty h0]
      rfl
    · rw [RingBuffer.pop_not_empty hI.1 h0]
      rfl
  · rcases eq_or_ne b.num_elems 0 with h0 | h0
    · rw [RingBuffer.peek_empty h0]
      rfl
    · rw [RingBuffer.peek_not_empty hI.1 h0]
      rfl
  · intro dest
    rw [RingBuffer.pop_many_spec hI dest]
    rfl
  · intro k
    rw [show RingBuffer.iter b = (⟨b, 0⟩ : IntoIteratorRingbuffer α n) from rfl,
      iterNextN_spec k b 0 hI (Nat.zero_le _)]
    rfl
  · intro k
    rw [show RingBuffer.into_iter b = (⟨b⟩ : ConsumingIntoIteratorRingbuffer α n)
        from rfl, consNextN_spec k b hI]
    rfl
  · intro ops
    obtain ⟨b2, hrun, _⟩ := runOps_inv ops hI
    rw [hrun]
    rfl

theorem C6_no_panic_amended_witness :
    1 ≤ 1 ∧ Reachable (RingBuffer.new Nat 1) ∧
    (RingBuffer.push_overwrite (RingBuffer.new Nat 1) 5).isSome = true ∧
    (RingBuffer.push_unless_full (RingBuffer.new Nat 1) 6).isSome = true ∧
    (RingBuffer.pop (RingBuffer.new Nat 1)).isSome = true ∧
    (RingBuffer.peek (RingBuffer.new Nat 1)).isSome = true ∧
    (RingBuffer.pop_many (RingBuffer.new Nat 1) [0, 0]).isSome = true ∧
    (iterNextN 2 (RingBuffer.iter (RingBuffer.new Nat 1))).isSome = true ∧
    (consNextN 2 (RingBuffer.into_iter (RingBuffer.new Nat 1))).isSome = true ∧
    (runOps (RingBuffer.new Nat 1) [Op.pushOverwrite 7, Op.popOp]).isSome = true :=
  ⟨by decide, ⟨[], rfl⟩,
    (C6_no_panic_amended (by decide) ⟨[], rfl⟩).1 5,
    (C6_no_panic_amended (by decide) ⟨[], rfl⟩).2.1 6,
    (C6_no_panic_amended (by decide) ⟨[], rfl⟩).2.2.1,
    (C6_no_panic_amended (by decide) ⟨[], rfl⟩).2.2.2.1,
    (C6_no_panic_amended (by decide) ⟨[], rfl⟩).2.2.2.2.1 [0, 0],
    (C6_no_panic_amended (by decide) ⟨[], rfl⟩).2.2.2.2.2.1 2,
    (C6_no_panic_amended (by decide) ⟨[], rfl⟩).2.2.2.2.2.2.1 2,
    (C6_no_panic_amended (by decide) ⟨[], rfl⟩).2.2.2.2.2.2.2
      [Op.pushOverwrite 7, Op.popOp]⟩

/-- C7: for a buffer with window `[a1, ..., ak]`, `k` calls of the borrowing
iterator's `next` yield exactly the window elements in order followed by
`none` forever, never changing the underlying buffer (the iterator keeps the
very same buffer value); the consuming iterator yields the same sequence and
drains the buffer to empty once `len` calls have happened; and `iter` is the
same traversal as `IntoIterator` on the borrow, so two traversals of one
unmodified state yield element-wise-equal sequences. -/
theorem C7_traversal_consistency {α : Type} [Inhabited α] {n : Nat}
    {b : RingBuffer α n} (hI : RingBuffer.Inv b) :
    (∀ k, iterNextN k (RingBuffer.iter b) =
        some (((RingBuffer.window b).take k).map some ++
          List.replicate (k - RingBuffer.len b) none,
          ⟨b, Nat.min k (RingBuffer.len b)⟩)) ∧
    (∀ k, ∃ bF, consNextN k (RingBuffer.into_iter b) =
        some (((RingBuffer.window b).take k).map some ++
          List.replicate (k - RingBuffer.len b) none, ⟨bF⟩) ∧
        RingBuffer.window bF = (RingBuffer.window b).drop k ∧
        (RingBuffer.len b ≤ k → RingBuffer.is_empty bF = true)) ∧
    RingBuffer.iter b = RingBuffer.borrow_iter b := by
  refine ⟨?_, ?_, rfl⟩
  · intro k
    rw [show RingBuffer.iter b = (⟨b, 0⟩ : IntoIteratorRingbuffer α n) from rfl,
      iterNextN_spec k b 0 hI (Nat.zero_le _)]
    simp only [List.drop_zero, Nat.sub_zero, Nat.zero_add, RingBuffer.len]
  · intro k
    refine ⟨⟨b.data, (b.oldest + Nat.min k b.num_elems) % n, b.num_elems - k⟩,
      ?_, ?_, ?_⟩
    · rw [show RingBuffer.into_iter b = (⟨b⟩ : ConsumingIntoIteratorRingbuffer α n)
          from rfl, consNextN_spec k b hI]
      simp only [RingBuffer.len]
    · have hsub : b.num_elems - k = b.num_elems - Nat.min k b.num_elems := by
        rcases Nat.le_total k b.num_elems with hle | hle
        · rw [natMin_eq_left hle]
        · rw [natMin_eq_right hle]
          omega
      rw [hsub, RingBuffer.window_advance hI (Nat.min k b.num_elems)]
      rcases Nat.le_total k b.num_elems with hle | hle
      · rw [natMin_eq_left hle]
      · rw [natMin_eq_right hle,
          List.drop_eq_nil_of_le (by simp [RingBuffer.length_window]),
          List.drop_eq_nil_of_le (by simp [RingBuffer.length_window]; exact hle)]
    · intro hk
      simp only [RingBuffer.len] at hk
      simp only [RingBuffer.is_empty, RingBuffer.len, beq_iff_eq]
      omega

theorem C7_traversal_consistency_witness :
    RingBuffer.Inv (⟨fun _ => 5, 0, 1⟩ : RingBuffer Nat 2) ∧
    iterNextN 3 (RingBuffer.iter (⟨fun _ => 5, 0, 1⟩ : RingBuffer Nat 2)) =
      some (((RingBuffer.window (⟨fun _ => 5, 0, 1⟩ : RingBuffer Nat 2)).take 3).map
          some ++
        List.replicate (3 - RingBuffer.len (⟨fun _ => 5, 0, 1⟩ : RingBuffer Nat 2)) none,
        ⟨(⟨fun _ => 5, 0, 1⟩ : RingBuffer Nat 2),
          Nat.min 3 (RingBuffer.len (⟨fun _ => 5, 0, 1⟩ : RingBuffer Nat 2))⟩) ∧
    (∃ bF, consNextN 3 (RingBuffer.into_iter (⟨fun _ => 5, 0, 1⟩ : RingBuffer Nat 2)) =
        some (((RingBuffer.window (⟨fun _ => 5, 0, 1⟩ : RingBuffer Nat 2)).take 3).map
            some ++
          List.replicate (3 - RingBuffer.len (⟨fun _ => 5, 0, 1⟩ : RingBuffer Nat 2))
            none, ⟨bF⟩) ∧
        RingBuffer.window bF =
          (RingBuffer.window (⟨fun _ => 5, 0, 1⟩ : RingBuffer Nat 2)).drop 3 ∧
        (RingBuffer.len (⟨fun _ => 5, 0, 1⟩ : RingBuffer Nat 2) ≤ 3 →
          RingBuffer.is_empty bF = true)) ∧
    RingBuffer.iter (⟨fun _ => 5, 0, 1⟩ : RingBuffer Nat 2) =
      RingBuffer.borrow_iter (⟨fun _ => 5, 0, 1⟩ : RingBuffer Nat 2) :=
  ⟨by decide, (C7_traversal_consistency (by decide)).1 3,
    (C7_traversal_consistency (by decide)).2.1 3,
    (C7_traversal_consistency (by decide)).2.2⟩

/-- C9: for byte buffers, the `embedded_io::Read` adapter's `read` is exactly
`Ok(pop_many(dest))`: it never returns an error, and count, final buffer and
destination contents agree with `pop_many` (in particular `Ok 0` on an empty
buffer). -/
theorem C9_read_refines_pop_many {n : Nat} {b : RingBuffer U8 n}
    (hI : RingBuffer.Inv b) (buf : List U8) :
    ∃ k b2 out, RingBuffer.pop_many b buf = some (k, b2, out) ∧
      RingBuffer.read b buf = some (Except.ok k, b2, out) := by
  refine ⟨Nat.min (RingBuffer.len b) buf.length,
    ⟨b.data, (b.oldest + Nat.min (RingBuffer.len b) buf.length) % n,
      b.num_elems - Nat.min (RingBuffer.len b) buf.length⟩,
    (RingBuffer.window b).take (Nat.min (RingBuffer.len b) buf.length) ++
      buf.drop (Nat.min (RingBuffer.len b) buf.length),
    RingBuffer.pop_many_spec hI buf, ?_⟩
  rw [RingBuffer.read, RingBuffer.pop_many_spec hI buf]
  rfl

theorem C9_read_refines_pop_many_witness :
    RingBuffer.Inv (RingBuffer.new U8 1) ∧
    (∃ k b2 out, RingBuffer.pop_many (RingBuffer.new U8 1) [] = some (k, b2, out) ∧
      RingBuffer.read (RingBuffer.new U8 1) [] = some (Except.ok k, b2, out)) :=
  ⟨by decide, C9_read_refines_pop_many (by decide) []⟩

theorem C10_size_zero_graceful_witness :
    RingBuffer.is_empty (RingBuffer.new Nat 0) = true ∧
    RingBuffer.is_full (RingBuffer.new Nat 0) = true ∧
    RingBuffer.push_unless_full (RingBuffer.new Nat 0) 5 =
      some (Except.error Error.BufferFull, RingBuffer.new Nat 0) ∧
    RingBuffer.pop (RingBuffer.new Nat 0) = some (none, RingBuffer.new Nat 0) ∧
    RingBuffer.peek (RingBuffer.new Nat 0) = some none :=
  C10_size_zero_graceful 5
